import Mathlib

/-!
Verification of the enum_dispatch procedural-macro crate.

The development shallowly embeds the crate's syntax model, definition cache and
expansion engine. Syntax items are represented as token trees (the fragment of
proc_macro2 token streams the crate manipulates); printers follow the ToTokens
implementations and parsers follow the syn Parse implementations used by the
crate. The cache (cache.rs) is modelled as explicit state threaded through the
operations; the process-global mutex discipline of the Rust code corresponds to
this sequential state passing. Strings stored in the Rust cache are produced by
TokenStream::to_string and re-read by String::parse::<TokenStream>; that
textual layer belongs to the host ecosystem (out of scope per the spec), so the
model stores the token streams themselves.

Model restrictions (the embedded fragment): generic parameter lists are plain
identifier lists without bounds or where clauses, attributes are single-segment
paths, visibility is either inherited or plain pub, trait items are method
signatures without default bodies, and types are path, reference or tuple types
(the non-path cases exercise the fatal branch of ident_for). These are the
shapes exercised by the claims.
-/

namespace EnumDispatch

/-- Delimiters of token groups, mirroring proc_macro2 Delimiter. -/
inductive Delim where
  | paren
  | brace
  | bracket
deriving DecidableEq

/-- A token tree: an identifier (keywords included), a single punctuation
character, or a delimited group, mirroring the proc_macro2 TokenTree fragment
the crate manipulates. -/
inductive Tok where
  | ident (s : String)
  | punct (c : Char)
  | group (d : Delim) (ts : List Tok)

mutual

/-- Total count of atomic tokens, a group counting its contents plus two for
the delimiters. Used to supply parser fuel. -/
def tokSize : Tok → Nat
  | .ident _ => 1
  | .punct _ => 1
  | .group _ ts => sumSize ts + 2

/-- Total count of atomic tokens of a token list. -/
def sumSize : List Tok → Nat
  | [] => 0
  | t :: ts => tokSize t + sumSize ts

end

/-- The fragment of syn Type used by the crate: path types (with at least one
segment, as in syn), reference types and tuple types. The non-path
constructors exist to exercise the fatal branch of ident_for in
enum_dispatch_item.rs. -/
inductive RType where
  | path (seg : String) (rest : List String)
  | ref (inner : RType)
  | tuple (elems : List RType)

/-- Tokens of the segments of a path after the first: a pair of colons then the
segment identifier, per syn Path printing. -/
def pathTailTokens : List String → List Tok
  | [] => []
  | s :: r => .punct ':' :: .punct ':' :: .ident s :: pathTailTokens r

mutual

/-- Tokens of a type, following syn ToTokens for the embedded fragment. -/
def typeTokens : RType → List Tok
  | .path s r => .ident s :: pathTailTokens r
  | .ref t => .punct '&' :: typeTokens t
  | .tuple es => [.group .paren (typeListTokens es)]

/-- Comma-separated types with no trailing comma, following Punctuated
printing. -/
def typeListTokens : List RType → List Tok
  | [] => []
  | [t] => typeTokens t
  | t :: ts => typeTokens t ++ .punct ',' :: typeListTokens ts

end

/-- Prepends a token to the first chunk of a chunk list (helper for
splitTop). -/
def consHead (t : Tok) : List (List Tok) → List (List Tok)
  | [] => [[t]]
  | ch :: chs => (t :: ch) :: chs

/-- Splits a token list at top-level occurrences of a punctuation character,
the way Punctuated.parse_terminated walks a delimited stream: group contents
are opaque. -/
def splitTop (c : Char) : List Tok → List (List Tok)
  | [] => [[]]
  | .punct c2 :: rest =>
      if c2 = c then [] :: splitTop c rest
      else consHead (.punct c2) (splitTop c rest)
  | tk :: rest => consHead tk (splitTop c rest)

/-- Drops a trailing empty chunk, accepting the optional trailing separator of
parse_terminated. -/
def dropTrailingEmpty (cs : List (List Tok)) : List (List Tok) :=
  match cs.getLast? with
  | some [] => cs.dropLast
  | _ => cs

/-- Option-valued map over a list that fails when any element fails. -/
def mapOpt (f : α → Option β) : List α → Option (List β)
  | [] => some []
  | a :: rest =>
      match f a, mapOpt f rest with
      | some b, some bs => some (b :: bs)
      | _, _ => none

/-- Consumes trailing path segments: two colons followed by an identifier,
repeatedly, per syn Path parsing. -/
def parsePathTail : List Tok → (List String × List Tok)
  | .punct ':' :: .punct ':' :: .ident s :: rest =>
      let pr := parsePathTail rest
      (s :: pr.1, pr.2)
  | ts => ([], ts)

/-- Parses a complete token chunk as a type, following the syn Type grammar
restricted to the embedded fragment. The fuel argument only bounds nesting
depth; every use supplies enough fuel for its input. -/
def parseTypeC : Nat → List Tok → Option RType
  | 0, _ => none
  | fuel + 1, tks =>
      match tks with
      | .punct '&' :: rest => Option.map RType.ref (parseTypeC fuel rest)
      | [.group .paren content] =>
          Option.map RType.tuple
            (mapOpt (parseTypeC fuel) (dropTrailingEmpty (splitTop ',' content)))
      | .ident s :: rest =>
          match parsePathTail rest with
          | (segs, []) => some (.path s segs)
          | _ => none
      | _ => none

/-- Parses the contents of a type list delimiter (the reduced enum body or a
tuple) as comma-separated types, the strict per-entry type parsing of
EnumDispatchItem parsing. -/
def parseTypesTop (content : List Tok) : Option (List RType) :=
  mapOpt (parseTypeC (sumSize content + 1)) (dropTrailingEmpty (splitTop ',' content))

/-- The fragment of syn Pat appearing in trait method parameters: a plain
identifier binding or the wildcard pattern (any non-identifier pattern takes
the fatal catch-all branch of extract_fn_args). -/
inductive Pat where
  | ident (s : String)
  | wild

/-- The syn FnArg fragment: a self reference receiver, a self value receiver,
or a captured pattern-typed argument, mirroring syn 0.15 FnArg as matched by
extract_fn_args in expansion.rs. -/
inductive FnArg where
  | selfRef (isMut : Bool)
  | selfValue (isMut : Bool)
  | captured (pat : Pat) (ty : RType)

/-- Tokens of a parameter pattern. -/
def patTokens : Pat → List Tok
  | .ident s => [.ident s]
  | .wild => [.ident "_"]

/-- Tokens of one function argument, per syn printing. -/
def argTokens : FnArg → List Tok
  | .selfRef m => .punct '&' :: (if m then [.ident "mut"] else []) ++ [.ident "self"]
  | .selfValue m => (if m then [.ident "mut"] else []) ++ [.ident "self"]
  | .captured p ty => patTokens p ++ .punct ':' :: typeTokens ty

/-- Comma-separated argument list with no trailing comma. -/
def argListTokens : List FnArg → List Tok
  | [] => []
  | [a] => argTokens a
  | a :: rest => argTokens a ++ .punct ',' :: argListTokens rest

/-- A trait method signature: name, arguments and optional return type,
the fragment of syn TraitItemMethod the crate reads (per the spec's data
model, a trait is an ordered sequence of method signatures). -/
structure TraitItemMethod where
  name : String
  inputs : List FnArg
  output : Option RType

/-- Tokens of one trait method signature, without the terminating
semicolon. -/
def methodTokens (m : TraitItemMethod) : List Tok :=
  .ident "fn" :: .ident m.name :: .group .paren (argListTokens m.inputs) ::
    (match m.output with
     | none => []
     | some t => .punct '-' :: .punct '>' :: typeTokens t)

/-- Tokens of a trait body: each method signature followed by a semicolon. -/
def methodListTokens : List TraitItemMethod → List Tok
  | [] => []
  | m :: ms => methodTokens m ++ .punct ';' :: methodListTokens ms

/-- The syn ItemTrait fragment stored by the cache: attributes, visibility,
optional unsafety, name, generic parameters and method signatures. -/
structure ItemTrait where
  attrs : List String
  vis : Bool
  unsafety : Bool
  ident : String
  generics : List String
  items : List TraitItemMethod

/-- The reduced enum form of enum_dispatch_item.rs: identical to a standard
enum except that each variant entry is a bare type. -/
structure EnumDispatchItem where
  attrs : List String
  vis : Bool
  ident : String
  generics : List String
  variants : List RType

/-- Tokens of an outer attribute list: hash, then a bracketed path. -/
def attrsTokens : List String → List Tok
  | [] => []
  | a :: rest => .punct '#' :: .group .bracket [.ident a] :: attrsTokens rest

/-- Tokens of a visibility marker. -/
def visTokens (v : Bool) : List Tok :=
  if v then [.ident "pub"] else []

/-- Tokens of the generic parameters after the first. -/
def genericsParamTokens : List String → List Tok
  | [] => []
  | [s] => [.ident s]
  | s :: rest => .ident s :: .punct ',' :: genericsParamTokens rest

/-- Tokens of a generic parameter list; empty generics print nothing, per syn
Generics printing. -/
def genericsTokens : List String → List Tok
  | [] => []
  | g :: gs => .punct '<' :: genericsParamTokens (g :: gs) ++ [.punct '>']

/-- Tokens of a trait definition, per syn ItemTrait printing: attributes,
visibility, unsafety, the trait keyword, name, generics, braced items. This is
what cache_trait stores. -/
def traitTokens (t : ItemTrait) : List Tok :=
  attrsTokens t.attrs ++ visTokens t.vis ++
  (if t.unsafety then [.ident "unsafe"] else []) ++
  .ident "trait" :: .ident t.ident :: genericsTokens t.generics ++
  [.group .brace (methodListTokens t.items)]

/-- Tokens of a reduced enum declaration, per the ToTokens implementation in
enum_dispatch_item.rs: attributes, visibility, the enum keyword, name,
generics, braced variant types. This is what cache_enum_dispatch stores. -/
def edTokens (e : EnumDispatchItem) : List Tok :=
  attrsTokens e.attrs ++ visTokens e.vis ++
  .ident "enum" :: .ident e.ident :: genericsTokens e.generics ++
  [.group .brace (typeListTokens e.variants)]

/-- Consumes leading outer attributes, per Attribute::parse_outer. -/
def parseAttrs : List Tok → (List String × List Tok)
  | .punct '#' :: .group .bracket [.ident a] :: rest =>
      let pr := parseAttrs rest
      (a :: pr.1, pr.2)
  | ts => ([], ts)

/-- Consumes a leading visibility marker. -/
def parseVis : List Tok → (Bool × List Tok)
  | .ident s :: rest =>
      if s = "pub" then (true, rest) else (false, .ident s :: rest)
  | ts => (false, ts)

/-- Consumes the generic parameters after an opening angle bracket, up to and
including the closing one. -/
def parseGenericTail : List Tok → Option (List String × List Tok)
  | .punct '>' :: rest => some ([], rest)
  | .ident s :: .punct '>' :: rest => some ([s], rest)
  | .ident s :: .punct ',' :: rest =>
      match parseGenericTail rest with
      | some (gs, r) => some (s :: gs, r)
      | none => none
  | _ => none

/-- Consumes an optional generic parameter list. -/
def parseGenerics : List Tok → Option (List String × List Tok)
  | .punct '<' :: rest => parseGenericTail rest
  | ts => some (([] : List String), ts)

/-- Parses one comma-split chunk of a parenthesized argument list as a
function argument. -/
def parseArgC (fuel : Nat) : List Tok → Option FnArg
  | [.punct '&', .ident s] =>
      if s = "self" then some (.selfRef false) else none
  | [.punct '&', .ident s1, .ident s2] =>
      if s1 = "mut" then
        if s2 = "self" then some (.selfRef true) else none
      else none
  | [.ident s] =>
      if s = "self" then some (.selfValue false) else none
  | [.ident s1, .ident s2] =>
      if s1 = "mut" then
        if s2 = "self" then some (.selfValue true) else none
      else none
  | .ident s :: .punct ':' :: tyToks =>
      if s = "_" then Option.map (FnArg.captured .wild) (parseTypeC fuel tyToks)
      else Option.map (FnArg.captured (.ident s)) (parseTypeC fuel tyToks)
  | _ => none

/-- Parses one semicolon-split chunk of a trait body as a method signature. -/
def parseMethodC (fuel : Nat) : List Tok → Option TraitItemMethod
  | .ident "fn" :: .ident name :: .group .paren argToks :: rest =>
      match mapOpt (parseArgC fuel) (dropTrailingEmpty (splitTop ',' argToks)), rest with
      | some args, [] => some ⟨name, args, none⟩
      | some args, .punct '-' :: .punct '>' :: tyToks =>
          Option.map (fun t => ⟨name, args, some t⟩) (parseTypeC fuel tyToks)
      | _, _ => none
  | _ => none

/-- Parses a braced trait body: semicolon-terminated method signatures. -/
def parseTraitBody (content : List Tok) : Option (List TraitItemMethod) :=
  let cs := splitTop ';' content
  match cs.getLast? with
  | some [] => mapOpt (parseMethodC (sumSize content + 1)) cs.dropLast
  | _ => none

/-- Parses a token stream as a reduced enum declaration, following the Parse
implementation in enum_dispatch_item.rs: attributes, visibility, the enum
keyword, name, generics, then a braced list where every entry is parsed
strictly as a type. -/
def parseED (ts : List Tok) : Option EnumDispatchItem :=
  match parseAttrs ts with
  | (attrs, ts1) =>
      match parseVis ts1 with
      | (vis, .ident "enum" :: .ident name :: rest) =>
          match parseGenerics rest with
          | some (gs, [.group .brace content]) =>
              match parseTypesTop content with
              | some vs => some ⟨attrs, vis, name, gs, vs⟩
              | none => none
          | _ => none
      | _ => none

/-- Consumes a leading unsafety marker. -/
def parseUnsafety : List Tok → (Bool × List Tok)
  | .ident s :: rest =>
      if s = "unsafe" then (true, rest) else (false, .ident s :: rest)
  | ts => (false, ts)

/-- Parses a token stream as a trait definition, following syn ItemTrait
parsing for the embedded fragment. -/
def parseTraitItem (ts : List Tok) : Option ItemTrait :=
  match parseAttrs ts with
  | (attrs, ts1) =>
      match parseVis ts1 with
      | (vis, ts2) =>
          match parseUnsafety ts2 with
          | (unsafety, .ident "trait" :: .ident name :: rest) =>
              match parseGenerics rest with
              | some (gs, [.group .brace content]) =>
                  match parseTraitBody content with
                  | some ms => some ⟨attrs, vis, unsafety, name, gs, ms⟩
                  | none => none
              | _ => none
          | _ => none

/-- The classification result of attributed_parser.rs. -/
inductive ParsedItem where
  | Trait (t : ItemTrait)
  | EnumDispatch (e : EnumDispatchItem)

/-- The classifier parse_attributed of attributed_parser.rs: try the reduced
enum grammar first, fall back to the trait grammar, otherwise report a parse
mismatch. -/
def parseAttributed (item : List Tok) : Except Unit ParsedItem :=
  match parseED item with
  | some enumdef => .ok (.EnumDispatch enumdef)
  | none =>
      match parseTraitItem item with
      | some traitdef => .ok (.Trait traitdef)
      | none => .error ()

/-- Derived final path segment. -/
def lastSegment (s : String) : List String → String
  | [] => s
  | s2 :: rest => lastSegment s2 rest

/-- The variant-tag derivation ident_for of enum_dispatch_item.rs: for a path
type, the identifier of the last path segment; any other type reaches the
unimplemented catch-all, modelled as none (the fatal UnnameableVariantType
condition). -/
def ident_for : RType → Option String
  | .path s rest => some (lastSegment s rest)
  | _ => none

/-- Modelled from the spec: the repository's enum_dispatch_variant.rs is not
under src/. Per the spec's data model, a variant pairs the tag derived from
the wrapped type's final path segment with the original type. -/
structure EnumDispatchVariant where
  ident : String
  ty : RType

/-- Except-valued map over a list, stopping at the first error, matching the
panic-on-first-offender behaviour of the Rust traversals. -/
def mapExcept (f : α → Except ε β) : List α → Except ε (List β)
  | [] => .ok []
  | a :: rest =>
      match f a with
      | .error e => .error e
      | .ok b =>
          match mapExcept f rest with
          | .error e => .error e
          | .ok bs => .ok (b :: bs)

/-- Modelled from the spec: building the per-variant view of a reduced enum
derives each tag via ident_for; a type with no nameable tail segment aborts
fatally (enum_dispatch_variant.rs is not under src/; the message is the
unimplemented text of ident_for). -/
def variantsOf (e : EnumDispatchItem) : Except String (List EnumDispatchVariant) :=
  mapExcept
    (fun ty =>
      match ident_for ty with
      | some i => .ok ⟨i, ty⟩
      | none => .error "A variant for the specified type cannot be created.")
    e.variants

/-- The FIELDNAME constant of expansion.rs: the name bound to the single enum
field in generated match arms. -/
def FIELDNAME : String := "inner"

/-- Receiver classification of expansion.rs (MethodType). -/
inductive MethodType where
  | Static
  | ByReference
  | ByValue
deriving DecidableEq

/-- The generated forwarding call of a match arm: FIELDNAME.method(args). -/
structure ExprCall where
  receiver : String
  method : String
  args : List String

/-- One generated match arm: EnumName::VariantName(field) with a forwarding
call body. -/
structure Arm where
  enumName : String
  variantName : String
  fieldName : String
  body : ExprCall

/-- The generated method body: a match on self. -/
inductive Expr where
  | matchSelf (arms : List Arm)

/-- A generated impl item method: its attributes, the signature copied from
the trait method, and the match body. -/
structure ImplItemMethod where
  attrs : List String
  sig : TraitItemMethod
  body : Expr

/-- One output impl block of the expansion: either a std::convert::From impl
for a variant or the trait impl block. -/
inductive OutImpl where
  | fromImpl (enumname : String) (variantName : String) (variantTy : RType)
  | traitImpl (unsafety : Bool) (generics : List String) (traitname : String)
      (enumname : String) (items : List ImplItemMethod)

/-- Accumulator pass of extract_fn_args: walks the argument list, recording
the receiver kind seen and collecting the identifiers of captured plain-name
parameters in order; a non-identifier parameter pattern takes the fatal
catch-all branch. -/
def extractGo : MethodType → List String → List FnArg →
    Except String (MethodType × List String)
  | mt, acc, [] => .ok (mt, acc)
  | _, acc, .selfRef _ :: rest => extractGo .ByReference acc rest
  | _, acc, .selfValue _ :: rest => extractGo .ByValue acc rest
  | mt, acc, .captured (.ident s) _ :: rest => extractGo mt (acc ++ [s]) rest
  | _, _, .captured .wild _ :: _ => .error "Unsupported argument type"

/-- extract_fn_args of expansion.rs: returns the receiver kind and the
non-receiver arguments as expressions (their declared names), in order. -/
def extract_fn_args (trait_args : List FnArg) : Except String (MethodType × List String) :=
  extractGo .Static [] trait_args

/-- create_trait_fn_call of expansion.rs: the forwarding call used in every
match arm; a static method (no self argument to match on) is the fatal
unimplemented condition. -/
def create_trait_fn_call (trait_method : TraitItemMethod) : Except String ExprCall :=
  match extract_fn_args trait_method.inputs with
  | .error e => .error e
  | .ok (mt, args) =>
      match mt with
      | .Static =>
          .error "Static methods cannot be enum_dispatched (no self argument to match on)"
      | _ => .ok ⟨FIELDNAME, trait_method.name, args⟩

/-- create_match_expr of expansion.rs: a match on self with one arm per enum
variant, each binding the single field to FIELDNAME and forwarding the call. -/
def create_match_expr (trait_method : TraitItemMethod) (enum_name : String)
    (enumvariants : List EnumDispatchVariant) : Except String Expr :=
  match create_trait_fn_call trait_method with
  | .error e => .error e
  | .ok call =>
      .ok (.matchSelf (enumvariants.map
        (fun v => ⟨enum_name, v.ident, FIELDNAME, call⟩)))

/-- create_trait_match of expansion.rs: the generated impl method, carrying
the inline attribute, the trait method's signature, and the match body. (The
panic branch for non-method trait items lies outside the embedded fragment,
whose trait items are method signatures.) -/
def create_trait_match (trait_method : TraitItemMethod) (enum_name : String)
    (enumvariants : List EnumDispatchVariant) : Except String ImplItemMethod :=
  match create_match_expr trait_method enum_name enumvariants with
  | .error e => .error e
  | .ok me => .ok ⟨["inline"], trait_method, me⟩

/-- generate_from_impls of expansion.rs: one std::convert::From impl per
variant, constructing the enum with that variant's tag. -/
def generate_from_impls (enumname : String) (enumvariants : List EnumDispatchVariant) :
    List OutImpl :=
  enumvariants.map (fun v => .fromImpl enumname v.ident v.ty)

/-- add_enum_impls of expansion.rs: builds the trait impl block (unsafety and
generics copied from the trait definition) with one generated method per trait
method, then emits all From impls followed by the trait impl block. -/
def add_enum_impls (enum_def : EnumDispatchItem) (traitdef : ItemTrait) :
    Except String (List OutImpl) :=
  match variantsOf enum_def with
  | .error e => .error e
  | .ok variants =>
      match mapExcept (fun m => create_trait_match m enum_def.ident variants)
          traitdef.items with
      | .error e => .error e
      | .ok items =>
          let trait_impl : OutImpl :=
            .traitImpl traitdef.unsafety traitdef.generics traitdef.ident
              enum_def.ident items
          .ok (generate_from_impls enum_def.ident variants ++ [trait_impl])

/-- The process-wide storage of cache.rs: the trait table, the enum table and
the deferred link table, each a keyed map (modelled as an association list with
insert-overwrites semantics). Values are the stored token streams. -/
structure Cache where
  traitDefs : List (String × List Tok)
  enumDefs : List (String × List Tok)
  deferredLinks : List (String × List String)

/-- The empty cache at the start of a compilation pass. -/
def emptyCache : Cache := ⟨[], [], []⟩

/-- Keyed insert with last-write-wins semantics (HashMap::insert). -/
def mapInsert (m : List (String × α)) (k : String) (v : α) : List (String × α) :=
  (k, v) :: m.filter (fun p => !(p.1 == k))

/-- Keyed removal (HashMap::remove_entry). -/
def mapRemove (m : List (String × α)) (k : String) : List (String × α) :=
  m.filter (fun p => !(p.1 == k))

/-- cache_trait of cache.rs: stores the trait's printed token stream under its
identifier. -/
def cache_trait (c : Cache) (item : ItemTrait) : Cache :=
  { c with traitDefs := mapInsert c.traitDefs item.ident (traitTokens item) }

/-- cache_enum_dispatch of cache.rs: stores the reduced enum's printed token
stream under its identifier. -/
def cache_enum_dispatch (c : Cache) (item : EnumDispatchItem) : Cache :=
  { c with enumDefs := mapInsert c.enumDefs item.ident (edTokens item) }

/-- Appends one linked identifier to a key's entry, creating the entry when
absent (the contains_key / push / insert sequence of defer_link). -/
def linkPush (m : List (String × List String)) (k v : String) :
    List (String × List String) :=
  match m.lookup k with
  | some vs => mapInsert m k (vs ++ [v])
  | none => mapInsert m k [v]

/-- defer_link of cache.rs: records the pending association in both
directions. -/
def defer_link (c : Cache) (needed cached : String) : Cache :=
  { c with deferredLinks := linkPush (linkPush c.deferredLinks needed cached) cached needed }

/-- fulfilled_by_enum of cache.rs: removes the supplied enum name's entry from
the link table, then returns the re-parsed trait definition for every linked
identifier that has a cached definition, silently dropping the rest. An
element none models a failing re-parse (the unwrap in the Rust code). -/
def fulfilled_by_enum (c : Cache) (defname : String) :
    List (Option ItemTrait) × Cache :=
  let idents := (c.deferredLinks.lookup defname).getD []
  (idents.filterMap (fun i => (c.traitDefs.lookup i).map parseTraitItem),
   { c with deferredLinks := mapRemove c.deferredLinks defname })

/-- fulfilled_by_trait of cache.rs: the symmetric operation returning reduced
enum definitions linked to the supplied trait name. -/
def fulfilled_by_trait (c : Cache) (defname : String) :
    List (Option EnumDispatchItem) × Cache :=
  let idents := (c.deferredLinks.lookup defname).getD []
  (idents.filterMap (fun i => (c.enumDefs.lookup i).map parseED),
   { c with deferredLinks := mapRemove c.deferredLinks defname })

/-- remove_entry of cache.rs: drops all pending associations of one
identifier. -/
def remove_entry (c : Cache) (defname : String) : Cache :=
  { c with deferredLinks := mapRemove c.deferredLinks defname }

/-- An annotated item as delivered to the annotation processor: a trait, or a
reduced enum together with the trait names given as annotation arguments. -/
inductive AnnotatedItem where
  | traitItem (t : ItemTrait)
  | enumItem (e : EnumDispatchItem) (linkedTraits : List String)

/-- Drops the failing parses of a retrieval result. -/
def reduceOpt : List (Option α) → List α
  | [] => []
  | some a :: rest => a :: reduceOpt rest
  | none :: rest => reduceOpt rest

/-- Modelled from the spec: the annotation dispatcher (the crate root, not
under src/). Per the spec's control flow, each annotated item is stored in the
cache, the enum side registers its declared links, the cache is asked for
already-satisfied counterparts, each match is expanded, and consumed links are
cleared to prevent duplicate expansion. -/
def process (c : Cache) : AnnotatedItem → List (Except String (List OutImpl)) × Cache
  | .traitItem t =>
      let c1 := cache_trait c t
      let pr := fulfilled_by_trait c1 t.ident
      let enums := reduceOpt pr.1
      (enums.map (fun e => add_enum_impls e t),
       enums.foldl (fun cc e => remove_entry cc e.ident) pr.2)
  | .enumItem e traits =>
      let c1 := traits.foldl (fun cc tn => defer_link cc tn e.ident) c
      let c2 := cache_enum_dispatch c1 e
      let pr := fulfilled_by_enum c2 e.ident
      let trs := reduceOpt pr.1
      (trs.map (fun t => add_enum_impls e t),
       trs.foldl (fun cc t => remove_entry cc t.ident) pr.2)

/-- Runs the dispatcher over a sequence of annotated items, collecting every
expansion output in order. -/
def runItems : Cache → List AnnotatedItem → List (Except String (List OutImpl))
  | _, [] => []
  | c, it :: rest =>
      let pr := process c it
      pr.1 ++ runItems pr.2 rest

/-- Well-formedness of a parameter within the embedded fragment: a plain-name
binding is not the wildcard token. -/
def wfArg : FnArg → Bool
  | .captured (.ident s) _ => !(s == "_")
  | _ => true

/-- Well-formedness of a method signature within the embedded fragment. -/
def wfMethod (m : TraitItemMethod) : Bool :=
  m.inputs.all wfArg

/-- Well-formedness of a trait definition within the embedded fragment. -/
def wfTrait (t : ItemTrait) : Bool :=
  t.items.all wfMethod

/-- True when no top-level token equals the given punctuation character. -/
def noTop (c : Char) : List Tok → Bool
  | [] => true
  | .punct c2 :: rest => !(c2 = c) && noTop c rest
  | _ :: rest => noTop c rest

/-- Prepends tokens to the first chunk of a chunk list. -/
def prependHead (pre : List Tok) : List (List Tok) → List (List Tok)
  | [] => [pre]
  | ch :: chs => (pre ++ ch) :: chs

/-- The declared name of a plain-name non-receiver parameter. -/
def capturedName : FnArg → Option String
  | .captured (.ident s) _ => some s
  | _ => none

/-- True for a receiver argument. -/
def isSelfArg : FnArg → Bool
  | .selfRef _ => true
  | .selfValue _ => true
  | .captured _ _ => false

/-- True for a path type. -/
def isPathType : RType → Bool
  | .path _ _ => true
  | _ => false

/-- The From-impl components of an expansion output, in order. -/
def fromImplsOf (out : List OutImpl) : List (String × String × RType) :=
  out.filterMap (fun o =>
    match o with
    | .fromImpl en vn ty => some (en, vn, ty)
    | _ => none)

/-- Sample trait used by the witnesses: one method with a reference receiver
and one plain named parameter. -/
def sampleTrait : ItemTrait :=
  ⟨["enum_dispatch"], true, false, "KnobControl", [],
    [⟨"set_position", [.selfRef false, .captured (.ident "value") (.path "f64" [])], none⟩,
     ⟨"get_value", [.selfRef false, .captured (.ident "x") (.path "f64" [])], some (.path "f64" [])⟩]⟩

/-- Sample reduced enum used by the witnesses: two path-typed variants. -/
def sampleEnum : EnumDispatchItem :=
  ⟨["enum_dispatch"], true, "Knob", [],
    [.path "LinearKnob" [], .path "knobs" ["LogarithmicKnob"]]⟩

/-- Sample trait with a static method (no receiver). -/
def sampleStaticTrait : ItemTrait :=
  ⟨[], false, false, "Maker", [], [⟨"make", [.captured (.ident "seed") (.path "u32" [])], none⟩]⟩

/-- Sample reduced enum with a non-path (tuple) variant type. -/
def sampleTupleEnum : EnumDispatchItem :=
  ⟨[], false, "Weird", [], [.path "A" [], .tuple [.path "B" [], .path "C" []]]⟩

/-- Sample cache holding the sample definitions and one pending link in each
direction. -/
def sampleCache : Cache :=
  defer_link (cache_enum_dispatch (cache_trait emptyCache sampleTrait) sampleEnum)
    "KnobControl" "Knob"

/-- The expansion output for the sample dispatch pair. -/
def sampleOut : List OutImpl :=
  (add_enum_impls sampleEnum sampleTrait).toOption.getD []

/-- The generated methods of the sample trait impl block. -/
def sampleTraitImplItems : List ImplItemMethod :=
  match sampleOut.getLast? with
  | some (.traitImpl _ _ _ _ items) => items
  | _ => []

/-- The first generated method of the sample trait impl block. -/
def sampleImplMethod : ImplItemMethod :=
  sampleTraitImplItems.head?.getD ⟨[], ⟨"", [], none⟩, .matchSelf []⟩

/-! Helper lemmas about tokens, chunking and option-valued maps. -/

theorem sumSize_append (a b : List Tok) : sumSize (a ++ b) = sumSize a + sumSize b := by
  induction a with
  | nil => simp [sumSize]
  | cons t ts ih => simp [sumSize, ih]; omega

theorem tokSize_pos (t : Tok) : 1 ≤ tokSize t := by
  cases t <;> simp [tokSize]

theorem typeTokens_ne_nil (t : RType) : typeTokens t ≠ [] := by
  cases t <;> simp [typeTokens]

theorem sumSize_typeTokens_pos (t : RType) : 1 ≤ sumSize (typeTokens t) := by
  cases t <;> simp [typeTokens, sumSize, tokSize]

theorem consHead_ne_nil (t : Tok) (l : List (List Tok)) : consHead t l ≠ [] := by
  cases l <;> simp [consHead]

theorem splitTop_ne_nil (c : Char) (ts : List Tok) : splitTop c ts ≠ [] := by
  induction ts with
  | nil => simp [splitTop]
  | cons t rest ih =>
      cases t with
      | punct c2 =>
          by_cases h : c2 = c <;> simp [splitTop, h, consHead_ne_nil]
      | ident s => simp [splitTop, consHead_ne_nil]
      | group d g => simp [splitTop, consHead_ne_nil]

theorem consHead_prependHead (t : Tok) (pre : List Tok) (l : List (List Tok)) :
    consHead t (prependHead pre l) = prependHead (t :: pre) l := by
  cases l <;> simp [consHead, prependHead]

theorem splitTop_append (c : Char) (pre ts : List Tok) (h : noTop c pre = true) :
    splitTop c (pre ++ ts) = prependHead pre (splitTop c ts) := by
  induction pre with
  | nil =>
      cases h2 : splitTop c ts with
      | nil => exact absurd h2 (splitTop_ne_nil c ts)
      | cons ch chs => simp [prependHead, h2]
  | cons tk pre ih =>
      cases tk with
      | punct c2 =>
          have hc : ¬ c2 = c := by
            simp [noTop] at h
            exact h.1
          have hpre : noTop c pre = true := by
            simp [noTop] at h
            exact h.2
          simp [splitTop, hc, ih hpre, consHead_prependHead]
      | ident s =>
          have hpre : noTop c pre = true := by simpa [noTop] using h
          simp [splitTop, ih hpre, consHead_prependHead]
      | group d g =>
          have hpre : noTop c pre = true := by simpa [noTop] using h
          simp [splitTop, ih hpre, consHead_prependHead]

theorem splitTop_sep (c : Char) (pre ts : List Tok) (h : noTop c pre = true) :
    splitTop c (pre ++ .punct c :: ts) = pre :: splitTop c ts := by
  rw [splitTop_append c pre _ h]
  simp [splitTop, prependHead]

theorem splitTop_single (c : Char) (pre : List Tok) (h : noTop c pre = true) :
    splitTop c pre = [pre] := by
  have := splitTop_append c pre [] h
  simpa [splitTop, prependHead] using this

theorem getLast?_mem_of_eq (l : List α) (x : α) (h : l.getLast? = some x) : x ∈ l := by
  induction l with
  | nil => simp at h
  | cons a rest ih =>
      cases rest with
      | nil => simp at h; simp [h]
      | cons b r2 =>
          rw [List.getLast?_cons_cons] at h
          exact List.mem_cons_of_mem a (ih h)

theorem dropTrailingEmpty_of_ne_nil (cs : List (List Tok))
    (h : ∀ x ∈ cs, x ≠ []) : dropTrailingEmpty cs = cs := by
  unfold dropTrailingEmpty
  cases h2 : cs.getLast? with
  | none => simp
  | some x =>
      have hx := h x (getLast?_mem_of_eq cs x h2)
      cases x with
      | nil => exact absurd rfl hx
      | cons y ys => simp

theorem mapOpt_map (f : List Tok → Option α) (g : α → List Tok) (l : List α)
    (h : ∀ a ∈ l, f (g a) = some a) : mapOpt f (l.map g) = some l := by
  induction l with
  | nil => rfl
  | cons a rest ih =>
      have h1 := h a (List.mem_cons_self a rest)
      have h2 : ∀ b ∈ rest, f (g b) = some b :=
        fun b hb => h b (List.mem_cons_of_mem a hb)
      simp [mapOpt, h1, ih h2]

theorem noTop_append (c : Char) (a b : List Tok) :
    noTop c (a ++ b) = (noTop c a && noTop c b) := by
  induction a with
  | nil => simp [noTop]
  | cons t ts ih => cases t <;> simp [noTop, ih, Bool.and_assoc]

theorem noTop_pathTail (c : Char) (h : ¬ c = ':') (r : List String) :
    noTop c (pathTailTokens r) = true := by
  induction r with
  | nil => simp [pathTailTokens, noTop]
  | cons s rest ih =>
      simp [pathTailTokens, noTop, ih]
      exact fun hc => h hc.symm

theorem noTop_typeTokens (c : Char) (h1 : ¬ c = ':') (h2 : ¬ c = '&') :
    ∀ t : RType, noTop c (typeTokens t) = true
  | .path s r => by simp [typeTokens, noTop, noTop_pathTail c h1 r]
  | .ref t2 => by
      have ih := noTop_typeTokens c h1 h2 t2
      simp [typeTokens, noTop, ih]
      exact fun hc => h2 hc.symm
  | .tuple es => by simp [typeTokens, noTop]

theorem sumSize_typeTokens_le (t : RType) (es : List RType) (h : t ∈ es) :
    sumSize (typeTokens t) ≤ sumSize (typeListTokens es) := by
  induction es with
  | nil => simp at h
  | cons u rest ih =>
      cases rest with
      | nil =>
          simp at h
          subst h
          simp [typeListTokens]
      | cons v r2 =>
          rcases List.mem_cons.mp h with h | h
          · subst h
            show sumSize (typeTokens t) ≤ sumSize (typeTokens t ++ .punct ',' :: typeListTokens (v :: r2))
            rw [sumSize_append]
            omega
          · have := ih h
            show sumSize (typeTokens t) ≤ sumSize (typeTokens u ++ .punct ',' :: typeListTokens (v :: r2))
            rw [sumSize_append]
            simp [sumSize] at this ⊢
            omega

theorem splitTop_typeList (es : List RType) (h : es ≠ []) :
    splitTop ',' (typeListTokens es) = es.map typeTokens := by
  induction es with
  | nil => exact absurd rfl h
  | cons t ts ih =>
      cases ts with
      | nil =>
          show splitTop ',' (typeTokens t) = [typeTokens t]
          exact splitTop_single ',' _ (noTop_typeTokens ',' (by decide) (by decide) t)
      | cons u r2 =>
          show splitTop ',' (typeTokens t ++ .punct ',' :: typeListTokens (u :: r2)) = _
          rw [splitTop_sep ',' _ _ (noTop_typeTokens ',' (by decide) (by decide) t),
            ih (by simp)]
          rfl

theorem chunks_typeList (es : List RType) :
    dropTrailingEmpty (splitTop ',' (typeListTokens es)) = es.map typeTokens := by
  cases es with
  | nil => rfl
  | cons t ts =>
      rw [splitTop_typeList _ (by simp)]
      refine dropTrailingEmpty_of_ne_nil _ ?_
      intro x hx
      rcases List.mem_map.mp hx with ⟨u, _, rfl⟩
      exact typeTokens_ne_nil u

theorem parsePathTail_pathTail (r : List String) :
    parsePathTail (pathTailTokens r) = (r, []) := by
  induction r with
  | nil => rfl
  | cons s rest ih => simp [pathTailTokens, parsePathTail, ih]

theorem rt_type : ∀ (fuel : Nat) (t : RType), sumSize (typeTokens t) ≤ fuel →
    parseTypeC fuel (typeTokens t) = some t := by
  intro fuel
  induction fuel with
  | zero =>
      intro t h
      have := sumSize_typeTokens_pos t
      omega
  | succ n ih =>
      intro t h
      cases t with
      | path s r =>
          show parseTypeC (n + 1) (.ident s :: pathTailTokens r) = _
          simp [parseTypeC, parsePathTail_pathTail r]
      | ref t2 =>
          have h2 : sumSize (typeTokens t2) ≤ n := by
            simp [typeTokens, sumSize, tokSize] at h
            omega
          show parseTypeC (n + 1) (.punct '&' :: typeTokens t2) = _
          simp [parseTypeC, ih t2 h2]
      | tuple es =>
          have hc : sumSize (typeListTokens es) ≤ n := by
            simp [typeTokens, sumSize, tokSize] at h
            omega
          show parseTypeC (n + 1) [.group .paren (typeListTokens es)] = _
          simp only [parseTypeC, chunks_typeList es]
          rw [mapOpt_map (parseTypeC n) typeTokens es
            (fun a ha => ih a (le_trans (sumSize_typeTokens_le a es ha) hc))]
          rfl

theorem rt_typesTop (es : List RType) :
    parseTypesTop (typeListTokens es) = some es := by
  unfold parseTypesTop
  rw [chunks_typeList]
  exact mapOpt_map _ typeTokens es
    (fun a ha => rt_type _ a (le_trans (sumSize_typeTokens_le a es ha) (by omega)))

theorem argTokens_ne_nil (a : FnArg) : argTokens a ≠ [] := by
  cases a with
  | selfRef m => simp [argTokens]
  | selfValue m => cases m <;> simp [argTokens]
  | captured p ty => cases p <;> simp [argTokens, patTokens]

theorem noTop_argTokens (c : Char) (h1 : ¬ c = ':') (h2 : ¬ c = '&') (a : FnArg) :
    noTop c (argTokens a) = true := by
  cases a with
  | selfRef m =>
      cases m <;> simp [argTokens, noTop] <;> exact fun hc => h2 hc.symm
  | selfValue m => cases m <;> simp [argTokens, noTop]
  | captured p ty =>
      cases p <;>
        simp [argTokens, patTokens, noTop_append, noTop,
          noTop_typeTokens c h1 h2 ty] <;>
        exact fun hc => h1 hc.symm

theorem sumSize_argTokens_le (a : FnArg) (l : List FnArg) (h : a ∈ l) :
    sumSize (argTokens a) ≤ sumSize (argListTokens l) := by
  induction l with
  | nil => simp at h
  | cons u rest ih =>
      cases rest with
      | nil =>
          simp at h
          subst h
          simp [argListTokens]
      | cons v r2 =>
          rcases List.mem_cons.mp h with h | h
          · subst h
            show sumSize (argTokens a) ≤ sumSize (argTokens a ++ .punct ',' :: argListTokens (v :: r2))
            rw [sumSize_append]
            omega
          · have := ih h
            show sumSize (argTokens a) ≤ sumSize (argTokens u ++ .punct ',' :: argListTokens (v :: r2))
            rw [sumSize_append]
            simp [sumSize] at this ⊢
            omega

theorem chunks_argList (l : List FnArg) :
    dropTrailingEmpty (splitTop ',' (argListTokens l)) = l.map argTokens := by
  cases l with
  | nil => rfl
  | cons a rest =>
      have hsp : splitTop ',' (argListTokens (a :: rest)) = (a :: rest).map argTokens := by
        induction rest generalizing a with
        | nil =>
            show splitTop ',' (argTokens a) = [argTokens a]
            exact splitTop_single ',' _ (noTop_argTokens ',' (by decide) (by decide) a)
        | cons u r2 ih =>
            show splitTop ',' (argTokens a ++ .punct ',' :: argListTokens (u :: r2)) = _
            rw [splitTop_sep ',' _ _ (noTop_argTokens ',' (by decide) (by decide) a), ih u]
            rfl
      rw [hsp]
      refine dropTrailingEmpty_of_ne_nil _ ?_
      intro x hx
      rcases List.mem_map.mp hx with ⟨u, _, rfl⟩
      exact argTokens_ne_nil u

theorem rt_arg (fuel : Nat) (a : FnArg) (hwf : wfArg a = true)
    (h : sumSize (argTokens a) ≤ fuel) :
    parseArgC fuel (argTokens a) = some a := by
  cases a with
  | selfRef m => cases m <;> simp [argTokens, parseArgC]
  | selfValue m => cases m <;> simp [argTokens, parseArgC]
  | captured p ty =>
      have hty : sumSize (typeTokens ty) ≤ fuel := by
        cases p <;> simp [argTokens, patTokens, sumSize, tokSize] at h <;> omega
      cases p with
      | wild => simp [argTokens, patTokens, parseArgC, rt_type fuel ty hty]
      | ident s =>
          have hs : ¬ s = "_" := by
            simp [wfArg] at hwf
            exact hwf
          simp [argTokens, patTokens, parseArgC, hs, rt_type fuel ty hty]

theorem noTop_semi_methodTokens (m : TraitItemMethod) :
    noTop ';' (methodTokens m) = true := by
  obtain ⟨name, inputs, output⟩ := m
  cases output with
  | none => simp [methodTokens, noTop]
  | some t =>
      simp [methodTokens, noTop, noTop_typeTokens ';' (by decide) (by decide) t]

theorem sumSize_methodTokens_le (m : TraitItemMethod) (ms : List TraitItemMethod)
    (h : m ∈ ms) :
    sumSize (methodTokens m) ≤ sumSize (methodListTokens ms) := by
  induction ms with
  | nil => simp at h
  | cons u rest ih =>
      rcases List.mem_cons.mp h with h | h
      · subst h
        show sumSize (methodTokens m) ≤ sumSize (methodTokens m ++ .punct ';' :: methodListTokens rest)
        rw [sumSize_append]
        omega
      · have := ih h
        show sumSize (methodTokens m) ≤ sumSize (methodTokens u ++ .punct ';' :: methodListTokens rest)
        rw [sumSize_append]
        simp [sumSize] at this ⊢
        omega

theorem splitTop_methodList (ms : List TraitItemMethod) :
    splitTop ';' (methodListTokens ms) = ms.map methodTokens ++ [[]] := by
  induction ms with
  | nil => rfl
  | cons m rest ih =>
      show splitTop ';' (methodTokens m ++ .punct ';' :: methodListTokens rest) = _
      rw [splitTop_sep ';' _ _ (noTop_semi_methodTokens m), ih]
      rfl

theorem rt_method (fuel : Nat) (m : TraitItemMethod) (hwf : wfMethod m = true)
    (h : sumSize (methodTokens m) ≤ fuel) :
    parseMethodC fuel (methodTokens m) = some m := by
  obtain ⟨name, inputs, output⟩ := m
  have hargsize : sumSize (argListTokens inputs) ≤ fuel := by
    simp [methodTokens, sumSize, tokSize, sumSize_append] at h
    cases output <;> simp_all <;> omega
  have hargs : mapOpt (parseArgC fuel) (dropTrailingEmpty (splitTop ',' (argListTokens inputs)))
      = some inputs := by
    rw [chunks_argList]
    refine mapOpt_map _ argTokens inputs (fun a ha => ?_)
    have hwa : wfArg a = true := by
      simp [wfMethod, List.all_eq_true] at hwf
      exact hwf a ha
    exact rt_arg fuel a hwa (le_trans (sumSize_argTokens_le a inputs ha) hargsize)
  cases output with
  | none =>
      show parseMethodC fuel
        (.ident "fn" :: .ident name :: .group .paren (argListTokens inputs) :: []) = _
      simp [parseMethodC, hargs]
  | some t =>
      have hty : sumSize (typeTokens t) ≤ fuel := by
        simp [methodTokens, sumSize, tokSize, sumSize_append] at h
        omega
      show parseMethodC fuel
        (.ident "fn" :: .ident name :: .group .paren (argListTokens inputs) ::
          .punct '-' :: .punct '>' :: typeTokens t) = _
      simp [parseMethodC, hargs, rt_type fuel t hty]

theorem rt_traitBody (ms : List TraitItemMethod) (hwf : ms.all wfMethod = true) :
    parseTraitBody (methodListTokens ms) = some ms := by
  unfold parseTraitBody
  rw [splitTop_methodList ms]
  simp only [List.getLast?_concat, List.dropLast_concat]
  refine mapOpt_map _ methodTokens ms (fun m hm => ?_)
  have hwm : wfMethod m = true := by
    simp [List.all_eq_true] at hwf
    exact hwf m hm
  exact rt_method _ m hwm
    (le_trans (sumSize_methodTokens_le m ms hm) (by omega))

theorem parseAttrs_append (l : List String) (x : String) (r : List Tok) :
    parseAttrs (attrsTokens l ++ .ident x :: r) = (l, .ident x :: r) := by
  induction l with
  | nil => rfl
  | cons a rest ih => simp [attrsTokens, parseAttrs, ih]

theorem parseVis_ident (x : String) (h : ¬ x = "pub") (r : List Tok) :
    parseVis (.ident x :: r) = (false, .ident x :: r) := by
  simp [parseVis, h]

theorem parseGenericTail_params (gs : List String) (hne : gs ≠ []) (r : List Tok) :
    parseGenericTail (genericsParamTokens gs ++ .punct '>' :: r) = some (gs, r) := by
  induction gs with
  | nil => exact absurd rfl hne
  | cons s rest ih =>
      cases rest with
      | nil => simp [genericsParamTokens, parseGenericTail]
      | cons u r2 =>
          show parseGenericTail
            (.ident s :: .punct ',' :: (genericsParamTokens (u :: r2) ++ .punct '>' :: r))
              = _
          simp [parseGenericTail, ih (by simp)]

theorem parseGenerics_append (gs : List String) (d : Delim) (c : List Tok) (r : List Tok) :
    parseGenerics (genericsTokens gs ++ .group d c :: r) = some (gs, .group d c :: r) := by
  cases gs with
  | nil => rfl
  | cons g gs2 =>
      show parseGenerics
        (.punct '<' :: (genericsParamTokens (g :: gs2) ++ [.punct '>']) ++ .group d c :: r)
          = _
      simp only [parseGenerics, List.cons_append, List.append_assoc, List.cons_append,
        List.nil_append]
      exact parseGenericTail_params (g :: gs2) (by simp) _

theorem rt_ed (e : EnumDispatchItem) : parseED (edTokens e) = some e := by
  obtain ⟨attrs, vis, name, generics, variants⟩ := e
  have hbody := rt_typesTop variants
  cases vis <;>
    simp [edTokens, parseED, visTokens, List.append_assoc, parseAttrs_append,
      parseVis, parseGenerics_append, hbody]

theorem rt_trait (t : ItemTrait) (hwf : wfTrait t = true) :
    parseTraitItem (traitTokens t) = some t := by
  obtain ⟨attrs, vis, unsafety, name, generics, items⟩ := t
  have hbody := rt_traitBody items (by simpa [wfTrait] using hwf)
  cases vis <;> cases unsafety <;>
    simp [traitTokens, parseTraitItem, visTokens, List.append_assoc,
      parseAttrs_append, parseVis, parseUnsafety, parseGenerics_append, hbody]

theorem parseED_excl (ts : List Tok) (e : EnumDispatchItem) (h : parseED ts = some e) :
    parseTraitItem ts = none := by
  unfold parseED at h
  unfold parseTraitItem
  rcases hA : parseAttrs ts with ⟨attrs, ts1⟩
  rw [hA] at h
  dsimp only at h ⊢
  rcases hV : parseVis ts1 with ⟨vis, ts2⟩
  rw [hV] at h
  dsimp only at h ⊢
  match hs : ts2 with
  | [] => simp at h
  | .ident s :: rest2 =>
      by_cases hse : s = "enum"
      · subst hse
        simp [parseUnsafety]
      · simp [hse] at h
  | .punct c :: rest2 => simp at h
  | .group d g :: rest2 => simp at h

/-! Helper lemmas about the cache maps, receiver extraction and the expansion
traversals. -/

theorem lookup_mapInsert_self (m : List (String × α)) (k : String) (v : α) :
    (mapInsert m k v).lookup k = some v := by
  simp [mapInsert, List.lookup]

theorem lookup_mapRemove_self (m : List (String × α)) (k : String) :
    (mapRemove m k).lookup k = none := by
  induction m with
  | nil => rfl
  | cons p rest ih =>
      obtain ⟨a, b⟩ := p
      by_cases h : a = k
      · subst h
        show (List.filter (fun p => !(p.1 == a)) ((a, b) :: rest)).lookup a = none
        rw [List.filter_cons]
        simp only [beq_self_eq_true, Bool.not_true, if_false, Bool.false_eq_true]
        exact ih
      · have hba : (a == k) = false := by simp [h]
        have hkb : (k == a) = false := by
          simp only [beq_eq_false_iff_ne, ne_eq]
          exact fun hk => h hk.symm
        show (List.filter (fun p => !(p.1 == k)) ((a, b) :: rest)).lookup k = none
        rw [List.filter_cons]
        simp only [hba, Bool.not_false, if_true]
        simp only [List.lookup, hkb]
        exact ih

theorem lookup_mapRemove_ne (m : List (String × α)) (k k2 : String) (h : ¬ k2 = k) :
    (mapRemove m k).lookup k2 = m.lookup k2 := by
  induction m with
  | nil => rfl
  | cons p rest ih =>
      obtain ⟨a, b⟩ := p
      show (List.filter (fun p => !(p.1 == k)) ((a, b) :: rest)).lookup k2
        = ((a, b) :: rest).lookup k2
      rw [List.filter_cons]
      by_cases ha : a = k
      · subst ha
        have h2a : (k2 == a) = false := by simp [h]
        simp only [beq_self_eq_true, Bool.not_true, if_false, Bool.false_eq_true]
        simp only [List.lookup, h2a]
        exact ih
      · have hba : (a == k) = false := by simp [ha]
        simp only [hba, Bool.not_false, if_true]
        simp only [List.lookup]
        cases hk2 : (k2 == a) with
        | true => rfl
        | false => exact ih

theorem lookup_mapInsert_ne (m : List (String × α)) (k k2 : String) (v : α)
    (h : ¬ k2 = k) :
    (mapInsert m k v).lookup k2 = m.lookup k2 := by
  have : (k2 == k) = false := by simp [h]
  show ((k, v) :: mapRemove m k).lookup k2 = m.lookup k2
  simp [List.lookup, this, lookup_mapRemove_ne m k k2 h]

theorem filterMap_map_eq (l : List String) (g : String → Option β) (h : β → γ)
    (d : β) :
    l.filterMap (fun i => (g i).map h)
      = (l.filter (fun i => (g i).isSome)).map (fun i => h ((g i).getD d)) := by
  induction l with
  | nil => rfl
  | cons i rest ih =>
      cases hg : g i with
      | none => simp [List.filterMap, List.filter, hg, ih]
      | some b => simp [List.filterMap, List.filter, hg, ih]

theorem extractGo_args (l : List FnArg) : ∀ (mt0 : MethodType) (acc : List String)
    (mt : MethodType) (args : List String),
    extractGo mt0 acc l = .ok (mt, args) → args = acc ++ l.filterMap capturedName := by
  induction l with
  | nil =>
      intro mt0 acc mt args h
      simp [extractGo] at h
      simp [h.2.symm]
  | cons a rest ih =>
      intro mt0 acc mt args h
      cases a with
      | selfRef m =>
          have := ih .ByReference acc mt args h
          simpa [capturedName] using this
      | selfValue m =>
          have := ih .ByValue acc mt args h
          simpa [capturedName] using this
      | captured p ty =>
          cases p with
          | ident s =>
              have := ih mt0 (acc ++ [s]) mt args h
              simpa [capturedName, List.append_assoc] using this
          | wild => simp [extractGo] at h

theorem extractGo_static_ok (l : List FnArg) : ∀ (mt0 : MethodType)
    (acc args : List String),
    extractGo mt0 acc l = .ok (.Static, args) →
      mt0 = .Static ∧ ∀ a ∈ l, isSelfArg a = false := by
  induction l with
  | nil =>
      intro mt0 acc args h
      simp [extractGo] at h
      simp [h.1]
  | cons a rest ih =>
      intro mt0 acc args h
      cases a with
      | selfRef m =>
          have := (ih .ByReference acc args h).1
          exact absurd this (by simp)
      | selfValue m =>
          have := (ih .ByValue acc args h).1
          exact absurd this (by simp)
      | captured p ty =>
          cases p with
          | ident s =>
              have := ih mt0 (acc ++ [s]) args h
              refine ⟨this.1, ?_⟩
              intro a ha
              rcases List.mem_cons.mp ha with ha | ha
              · subst ha; rfl
              · exact this.2 a ha
          | wild => simp [extractGo] at h

theorem extractGo_no_self (l : List FnArg) (h : ∀ a ∈ l, isSelfArg a = false) :
    ∀ (mt0 : MethodType) (acc : List String),
      (∀ mt args, extractGo mt0 acc l = .ok (mt, args) → mt = mt0) := by
  induction l with
  | nil =>
      intro mt0 acc mt args hx
      simp [extractGo] at hx
      exact hx.1.symm
  | cons a rest ih =>
      intro mt0 acc mt args hx
      cases a with
      | selfRef m =>
          have := h (FnArg.selfRef m) (List.mem_cons_self (FnArg.selfRef m) rest)
          simp [isSelfArg] at this
      | selfValue m =>
          have := h (FnArg.selfValue m) (List.mem_cons_self (FnArg.selfValue m) rest)
          simp [isSelfArg] at this
      | captured p ty =>
          cases p with
          | ident s =>
              exact ih (fun a ha => h a (List.mem_cons_of_mem _ ha)) mt0 (acc ++ [s]) mt args hx
          | wild => simp [extractGo] at hx

theorem mapExcept_ok_mem (f : α → Except ε β) (l : List α) (bs : List β)
    (h : mapExcept f l = .ok bs) : ∀ b ∈ bs, ∃ a ∈ l, f a = .ok b := by
  induction l generalizing bs with
  | nil =>
      simp [mapExcept] at h
      subst h
      simp
  | cons a rest ih =>
      intro b hb
      unfold mapExcept at h
      cases hf : f a with
      | error e => rw [hf] at h; exact absurd h (by simp)
      | ok b0 =>
          rw [hf] at h
          cases hr : mapExcept f rest with
          | error e => rw [hr] at h; exact absurd h (by simp)
          | ok bs0 =>
              rw [hr] at h
              simp at h
              subst h
              rcases List.mem_cons.mp hb with hb | hb
              · exact ⟨a, List.mem_cons_self a rest, by rw [hf, hb]⟩
              · rcases ih bs0 hr b hb with ⟨a2, ha2, hfa2⟩
                exact ⟨a2, List.mem_cons_of_mem a ha2, hfa2⟩

theorem mapExcept_not_ok_of_mem (f : α → Except ε β) (l : List α) (a : α)
    (ha : a ∈ l) (hf : ∀ b, f a ≠ .ok b) :
    ∀ bs, mapExcept f l ≠ .ok bs := by
  induction l with
  | nil => simp at ha
  | cons u rest ih =>
      intro bs h
      unfold mapExcept at h
      cases hu : f u with
      | error e => rw [hu] at h; exact absurd h (by simp)
      | ok b0 =>
          rw [hu] at h
          rcases List.mem_cons.mp ha with ha0 | ha0
          · subst ha0; exact hf b0 hu
          · cases hr : mapExcept f rest with
            | error e => rw [hr] at h; exact absurd h (by simp)
            | ok bs0 => exact ih ha0 bs0 hr

theorem mapExcept_map_ok (f : α → Except ε β) (l : List α) (g : α → β)
    (h : ∀ a ∈ l, f a = .ok (g a)) : mapExcept f l = .ok (l.map g) := by
  induction l with
  | nil => rfl
  | cons a rest ih =>
      have h1 := h a (List.mem_cons_self a rest)
      have h2 : ∀ b ∈ rest, f b = .ok (g b) := fun b hb => h b (List.mem_cons_of_mem a hb)
      simp [mapExcept, h1, ih h2]

theorem variantsOf_ok (e : EnumDispatchItem) (vs : List EnumDispatchVariant)
    (h : variantsOf e = .ok vs) :
    vs = e.variants.map (fun ty => ⟨(ident_for ty).getD "", ty⟩)
      ∧ ∀ ty ∈ e.variants, (ident_for ty).isSome = true := by
  unfold variantsOf at h
  generalize hl : e.variants = l at h ⊢
  clear hl
  induction l generalizing vs with
  | nil =>
      simp [mapExcept] at h
      simp [h.symm]
  | cons ty rest ih =>
      unfold mapExcept at h
      cases hi : ident_for ty with
      | none => rw [hi] at h; simp at h
      | some i =>
          rw [hi] at h
          simp at h
          cases hr : mapExcept (fun ty =>
              match ident_for ty with
              | some i => Except.ok (⟨i, ty⟩ : EnumDispatchVariant)
              | none => Except.error "A variant for the specified type cannot be created.") rest with
          | error e2 => rw [hr] at h; exact absurd h (by simp)
          | ok bs0 =>
              rw [hr] at h
              simp at h
              rcases ih bs0 hr with ⟨hmap, hall⟩
              subst h
              refine ⟨by simp [hi, hmap], ?_⟩
              intro ty2 hty2
              rcases List.mem_cons.mp hty2 with h2 | h2
              · subst h2; simp [hi]
              · exact hall ty2 h2

theorem add_enum_impls_ok (e : EnumDispatchItem) (t : ItemTrait) (out : List OutImpl)
    (h : add_enum_impls e t = .ok out) :
    ∃ vs items, variantsOf e = .ok vs
      ∧ mapExcept (fun m => create_trait_match m e.ident vs) t.items = .ok items
      ∧ out = generate_from_impls e.ident vs
          ++ [.traitImpl t.unsafety t.generics t.ident e.ident items] := by
  unfold add_enum_impls at h
  split at h
  next e2 heq => exact absurd h (by simp)
  next vs heq =>
      split at h
      next e2 heq2 => exact absurd h (by simp)
      next items heq2 =>
          simp at h
          exact ⟨vs, items, heq, heq2, h.symm⟩

theorem head?_mem_of_eq (l : List α) (x : α) (h : l.head? = some x) : x ∈ l := by
  cases l with
  | nil => simp at h
  | cons a rest =>
      simp at h
      simp [h]

theorem lookup_mem (l : List (String × α)) (k : String) (v : α)
    (h : l.lookup k = some v) : (k, v) ∈ l := by
  induction l with
  | nil => simp [List.lookup] at h
  | cons p rest ih =>
      obtain ⟨a, b⟩ := p
      simp only [List.lookup] at h
      cases hk : (k == a) with
      | true =>
          rw [hk] at h
          simp at h
          have : k = a := by simpa using hk
          simp [this, h]
      | false =>
          rw [hk] at h
          simp at h
          exact List.mem_cons_of_mem _ (ih h)

theorem filterMap_eq_map_of_some (f : α → Option β) (g : α → β) (l : List α)
    (h : ∀ a ∈ l, f a = some (g a)) : l.filterMap f = l.map g := by
  induction l with
  | nil => rfl
  | cons a rest ih =>
      have h1 := h a (List.mem_cons_self a rest)
      have h2 : ∀ b ∈ rest, f b = some (g b) := fun b hb => h b (List.mem_cons_of_mem a hb)
      simp [List.filterMap, h1, ih h2]

/-! The claims. -/

/-- C3: for every trait method with a by-reference or by-value receiver (the
receiver extraction succeeds with a non-static receiver kind) and every enum
with the given variant list, the generated body is a match on self with
exactly one arm per variant in declaration order, each arm binding the
variant's single wrapped value to FIELDNAME and calling the method of the same
name on it with the declared non-receiver argument names in their original
order. -/
theorem match_arms_per_variant (m : TraitItemMethod) (ename : String)
    (vs : List EnumDispatchVariant) (mt : MethodType) (args : List String)
    (hex : extract_fn_args m.inputs = .ok (mt, args))
    (hmt : ¬ mt = MethodType.Static) :
    create_match_expr m ename vs
      = .ok (.matchSelf (vs.map
          (fun v => ⟨ename, v.ident, FIELDNAME, ⟨FIELDNAME, m.name, args⟩⟩)))
    ∧ (vs.map (fun v =>
        (⟨ename, v.ident, FIELDNAME, ⟨FIELDNAME, m.name, args⟩⟩ : Arm))).length
        = vs.length
    ∧ args = m.inputs.filterMap capturedName := by
  have hargs : args = m.inputs.filterMap capturedName := by
    have := extractGo_args m.inputs .Static [] mt args hex
    simpa using this
  have hcall : create_trait_fn_call m = .ok ⟨FIELDNAME, m.name, args⟩ := by
    unfold create_trait_fn_call
    rw [show extract_fn_args m.inputs = .ok (mt, args) from hex]
    cases mt with
    | Static => exact absurd rfl hmt
    | ByReference => rfl
    | ByValue => rfl
  refine ⟨?_, by simp, hargs⟩
  unfold create_match_expr
  rw [hcall]

/-- C3 witness: the sample method with a reference receiver and one named
argument over a one-variant enum. -/
theorem match_arms_per_variant_witness :
    create_match_expr ⟨"set_position",
        [.selfRef false, .captured (.ident "value") (.path "f64" [])], none⟩
      "Knob" [⟨"LinearKnob", .path "LinearKnob" []⟩]
      = .ok (.matchSelf [⟨"Knob", "LinearKnob", FIELDNAME,
          ⟨FIELDNAME, "set_position", ["value"]⟩⟩]) := by
  have h := match_arms_per_variant
    ⟨"set_position", [.selfRef false, .captured (.ident "value") (.path "f64" [])], none⟩
    "Knob" [⟨"LinearKnob", .path "LinearKnob" []⟩]
    .ByReference ["value"] rfl (by simp)
  simpa using h.1

/-- C5: a trait containing a method with no receiver makes expansion fail
fatally; the whole item's expansion is an error, so the method is never
silently skipped and no partial output is produced. -/
theorem static_method_aborts (e : EnumDispatchItem) (t : ItemTrait)
    (m : TraitItemMethod) (hm : m ∈ t.items)
    (hstatic : ∀ a ∈ m.inputs, isSelfArg a = false) :
    ∀ out, add_enum_impls e t ≠ .ok out := by
  intro out h
  rcases add_enum_impls_ok e t out h with ⟨vs, items, hv, hmap, hout⟩
  have hne : ∀ b, create_trait_match m e.ident vs ≠ .ok b := by
    intro b hb
    unfold create_trait_match at hb
    cases hme : create_match_expr m e.ident vs with
    | error e2 => rw [hme] at hb; exact absurd hb (by simp)
    | ok me =>
        unfold create_match_expr at hme
        cases hc : create_trait_fn_call m with
        | error e2 => rw [hc] at hme; exact absurd hme (by simp)
        | ok call =>
            unfold create_trait_fn_call at hc
            cases hex : extract_fn_args m.inputs with
            | error e2 => rw [hex] at hc; exact absurd hc (by simp)
            | ok pr =>
                rw [hex] at hc
                obtain ⟨mt, args⟩ := pr
                have hmt : mt = .Static := by
                  have hgo : extractGo .Static [] m.inputs = .ok (mt, args) := hex
                  exact extractGo_no_self m.inputs hstatic .Static [] mt args hgo
                subst hmt
                simp at hc
  exact mapExcept_not_ok_of_mem _ t.items m hm hne items hmap

/-- C5 witness: the sample static trait cannot be expanded for the sample
enum. -/
theorem static_method_aborts_witness :
    add_enum_impls sampleEnum sampleStaticTrait ≠ .ok [] := by
  refine static_method_aborts sampleEnum sampleStaticTrait
    ⟨"make", [.captured (.ident "seed") (.path "u32" [])], none⟩ ?_ ?_ []
  · simp [sampleStaticTrait]
  · intro a ha
    simp [sampleStaticTrait] at ha
    subst ha
    rfl

/-- C6: deriving a variant tag succeeds exactly on path types, yielding the
final path segment, and a non-path variant type makes the whole expansion
abort fatally with no fallback tag. -/
theorem variant_tag_derivation :
    (∀ s rest, ident_for (.path s rest) = some (lastSegment s rest))
    ∧ (∀ ty, isPathType ty = false → ident_for ty = none)
    ∧ (∀ (e : EnumDispatchItem) (t : ItemTrait) (ty : RType), ty ∈ e.variants →
        ident_for ty = none → ∀ out, add_enum_impls e t ≠ .ok out) := by
  refine ⟨fun s rest => rfl, ?_, ?_⟩
  · intro ty h
    cases ty with
    | path s rest => simp [isPathType] at h
    | ref inner => rfl
    | tuple es => rfl
  · intro e t ty hty hid out h
    rcases add_enum_impls_ok e t out h with ⟨vs, items, hv, _, _⟩
    unfold variantsOf at hv
    have hfn : ∀ b, (match ident_for ty with
        | some i => Except.ok (⟨i, ty⟩ : EnumDispatchVariant)
        | none => Except.error "A variant for the specified type cannot be created.")
          ≠ Except.ok b := by
      intro b hb
      rw [hid] at hb
      simp at hb
    exact mapExcept_not_ok_of_mem _ e.variants ty hty hfn vs hv

/-- C6 witness: a path with two segments yields its final segment, and the
sample enum with a tuple variant cannot be expanded. -/
theorem variant_tag_derivation_witness :
    ident_for (.path "knobs" ["LogarithmicKnob"]) = some "LogarithmicKnob"
    ∧ ident_for (.tuple [.path "B" [], .path "C" []]) = none
    ∧ add_enum_impls sampleTupleEnum sampleTrait ≠ .ok [] := by
  refine ⟨variant_tag_derivation.1 "knobs" ["LogarithmicKnob"], ?_, ?_⟩
  · exact variant_tag_derivation.2.1 (.tuple [.path "B" [], .path "C" []]) rfl
  · exact variant_tag_derivation.2.2 sampleTupleEnum sampleTrait
      (.tuple [.path "B" [], .path "C" []]) (by simp [sampleTupleEnum]) rfl []

/-- C8: every generated trait method implementation in the expansion output
carries the inline attribute as its attribute list. -/
theorem generated_methods_inline (e : EnumDispatchItem) (t : ItemTrait)
    (out : List OutImpl) (h : add_enum_impls e t = .ok out) :
    ∀ u g tn en items, OutImpl.traitImpl u g tn en items ∈ out →
      ∀ im ∈ items, im.attrs = ["inline"] := by
  intro u g tn en items hmem im him
  rcases add_enum_impls_ok e t out h with ⟨vs, its, hv, hmap, hout⟩
  subst hout
  rcases List.mem_append.mp hmem with hin | hin
  · unfold generate_from_impls at hin
    rcases List.mem_map.mp hin with ⟨v, _, hveq⟩
    exact absurd hveq (by simp)
  · simp at hin
    rcases mapExcept_ok_mem _ t.items its hmap im (by rw [← hin.2.2.2.2]; exact him)
      with ⟨m2, _, hcm⟩
    unfold create_trait_match at hcm
    cases hme : create_match_expr m2 e.ident vs with
    | error e2 => rw [hme] at hcm; exact absurd hcm (by simp)
    | ok me =>
        rw [hme] at hcm
        simp at hcm
        rw [← hcm]

/-- C8 witness: the first generated method of the sample expansion carries the
inline attribute. -/
theorem generated_methods_inline_witness :
    sampleImplMethod.attrs = ["inline"] :=
  generated_methods_inline sampleEnum sampleTrait sampleOut rfl
    false [] "KnobControl" "Knob" sampleTraitImplItems
    (getLast?_mem_of_eq sampleOut _ rfl)
    sampleImplMethod (head?_mem_of_eq sampleTraitImplItems _ rfl)

/-- C4: a successful expansion emits exactly one conversion impl per declared
variant type, in declaration order, each constructing the enum with the tag
derived from that variant type. -/
theorem from_impls_per_variant (e : EnumDispatchItem) (t : ItemTrait)
    (out : List OutImpl) (h : add_enum_impls e t = .ok out) :
    fromImplsOf out
      = e.variants.map (fun ty => (e.ident, (ident_for ty).getD "", ty))
    ∧ (fromImplsOf out).length = e.variants.length
    ∧ ∀ ty ∈ e.variants, (ident_for ty).isSome = true := by
  rcases add_enum_impls_ok e t out h with ⟨vs, its, hv, hmap, hout⟩
  rcases variantsOf_ok e vs hv with ⟨hvs, hall⟩
  subst hout
  subst hvs
  have hmain : fromImplsOf
      (generate_from_impls e.ident
          (e.variants.map (fun ty => ⟨(ident_for ty).getD "", ty⟩))
        ++ [.traitImpl t.unsafety t.generics t.ident e.ident its])
      = e.variants.map (fun ty => (e.ident, (ident_for ty).getD "", ty)) := by
    unfold fromImplsOf generate_from_impls
    rw [List.filterMap_append]
    have h2 : List.filterMap (fun o =>
        match o with
        | OutImpl.fromImpl en vn ty => some (en, vn, ty)
        | _ => none)
        [OutImpl.traitImpl t.unsafety t.generics t.ident e.ident its] = [] := rfl
    rw [h2, List.append_nil, List.filterMap_map, List.filterMap_map]
    exact filterMap_eq_map_of_some _
      (fun ty => (e.ident, (ident_for ty).getD "", ty)) e.variants (fun a ha => rfl)
  refine ⟨hmain, ?_, hall⟩
  rw [hmain, List.length_map]

/-- C4 witness: the sample expansion has exactly the two conversions of the
sample enum, in order. -/
theorem from_impls_per_variant_witness :
    fromImplsOf sampleOut
      = [("Knob", "LinearKnob", .path "LinearKnob" []),
         ("Knob", "LogarithmicKnob", .path "knobs" ["LogarithmicKnob"])]
    ∧ (fromImplsOf sampleOut).length = 2 := by
  have h := from_impls_per_variant sampleEnum sampleTrait sampleOut rfl
  exact ⟨by simpa [sampleEnum, ident_for, lastSegment] using h.1,
    by simpa [sampleEnum] using h.2.1⟩

/-- C2 counterexample: for the sample pair the expansion output does not start
with the trait implementation block; its head is a conversion impl, refuting
the claimed trait-impl-first ordering at this input. -/
theorem assembly_order_counterexample :
    ¬ ∃ (out : List OutImpl) (u : Bool) (g : List String) (tn en : String)
        (items : List ImplItemMethod) (rest : List OutImpl),
        add_enum_impls sampleEnum sampleTrait = .ok out
        ∧ out = OutImpl.traitImpl u g tn en items :: rest := by
  have hhead : ∀ out, add_enum_impls sampleEnum sampleTrait = .ok out →
      out.head? = some (.fromImpl "Knob" "LinearKnob" (.path "LinearKnob" [])) := by
    intro out h
    have hc : (add_enum_impls sampleEnum sampleTrait).toOption.bind List.head?
        = some (.fromImpl "Knob" "LinearKnob" (.path "LinearKnob" [])) := rfl
    rw [h] at hc
    simpa using hc
  rintro ⟨out, u, g, tn, en, items, rest, hok, hshape⟩
  have := hhead out hok
  rw [hshape] at this
  simp at this

/-- C2 (amended): the output token sequence consists of all per-variant
conversion implementations first, in declaration order, followed by the trait
implementation block last. -/
theorem assembly_order (e : EnumDispatchItem) (t : ItemTrait)
    (out : List OutImpl) (h : add_enum_impls e t = .ok out) :
    ∃ vs items, variantsOf e = .ok vs
      ∧ out = vs.map (fun v => OutImpl.fromImpl e.ident v.ident v.ty)
          ++ [.traitImpl t.unsafety t.generics t.ident e.ident items] := by
  rcases add_enum_impls_ok e t out h with ⟨vs, items, hv, hmap, hout⟩
  exact ⟨vs, items, hv, by simpa [generate_from_impls] using hout⟩

/-- C2 witness: the sample expansion splits as conversions followed by the
trait impl block. -/
theorem assembly_order_witness :
    ∃ vs items, variantsOf sampleEnum = .ok vs
      ∧ sampleOut = vs.map (fun v => OutImpl.fromImpl sampleEnum.ident v.ident v.ty)
          ++ [.traitImpl sampleTrait.unsafety sampleTrait.generics
              sampleTrait.ident sampleEnum.ident items] :=
  assembly_order sampleEnum sampleTrait sampleOut rfl

/-- C9: each take operation removes the supplied name's pending-link entry,
leaves every other link entry and both definition tables unchanged, and
returns the re-parsed definitions of exactly the linked identifiers that have
a cached definition, silently dropping the uncached ones. -/
theorem fulfilled_take_frame (c : Cache) (name : String) :
    ((fulfilled_by_enum c name).2.traitDefs = c.traitDefs
      ∧ (fulfilled_by_enum c name).2.enumDefs = c.enumDefs
      ∧ (fulfilled_by_enum c name).2.deferredLinks.lookup name = none
      ∧ (∀ k, ¬ k = name →
          (fulfilled_by_enum c name).2.deferredLinks.lookup k
            = c.deferredLinks.lookup k)
      ∧ (fulfilled_by_enum c name).1
          = (((c.deferredLinks.lookup name).getD []).filter
              (fun i => (c.traitDefs.lookup i).isSome)).map
              (fun i => parseTraitItem ((c.traitDefs.lookup i).getD [])))
    ∧ ((fulfilled_by_trait c name).2.traitDefs = c.traitDefs
      ∧ (fulfilled_by_trait c name).2.enumDefs = c.enumDefs
      ∧ (fulfilled_by_trait c name).2.deferredLinks.lookup name = none
      ∧ (∀ k, ¬ k = name →
          (fulfilled_by_trait c name).2.deferredLinks.lookup k
            = c.deferredLinks.lookup k)
      ∧ (fulfilled_by_trait c name).1
          = (((c.deferredLinks.lookup name).getD []).filter
              (fun i => (c.enumDefs.lookup i).isSome)).map
              (fun i => parseED ((c.enumDefs.lookup i).getD []))) := by
  refine ⟨⟨rfl, rfl, lookup_mapRemove_self _ _,
      fun k hk => lookup_mapRemove_ne _ _ _ hk, ?_⟩,
    ⟨rfl, rfl, lookup_mapRemove_self _ _,
      fun k hk => lookup_mapRemove_ne _ _ _ hk, ?_⟩⟩
  · exact filterMap_map_eq _ _ _ []
  · exact filterMap_map_eq _ _ _ []

/-- C9 witness: taking the sample enum's name removes its pending link, keeps
the reverse link and both tables, and returns the cached sample trait parse. -/
theorem fulfilled_take_frame_witness :
    (fulfilled_by_enum sampleCache "Knob").2.traitDefs = sampleCache.traitDefs
    ∧ (fulfilled_by_enum sampleCache "Knob").2.deferredLinks.lookup "Knob" = none
    ∧ (fulfilled_by_enum sampleCache "Knob").2.deferredLinks.lookup "KnobControl"
        = sampleCache.deferredLinks.lookup "KnobControl"
    ∧ (fulfilled_by_enum sampleCache "Knob").1
        = ((((sampleCache.deferredLinks.lookup "Knob").getD []).filter
            (fun i => (sampleCache.traitDefs.lookup i).isSome)).map
            (fun i => parseTraitItem ((sampleCache.traitDefs.lookup i).getD []))) := by
  have h := fulfilled_take_frame sampleCache "Knob"
  exact ⟨h.1.1, h.1.2.2.1, h.1.2.2.2.1 "KnobControl" (by decide), h.1.2.2.2.2⟩

/-- C10: a definition stored by the cache re-parses successfully on
retrieval, and the retrieved definition prints back to exactly the stored
token stream: every element the take operations return is a successful parse
of a stored serialization. -/
theorem cache_roundtrip (c : Cache) (name : String)
    (hT : ∀ p ∈ c.traitDefs, ∃ t, wfTrait t = true ∧ p.2 = traitTokens t)
    (hE : ∀ p ∈ c.enumDefs, ∃ e, p.2 = edTokens e) :
    (∀ x ∈ (fulfilled_by_enum c name).1, ∃ t, x = some t
        ∧ ∃ i, c.traitDefs.lookup i = some (traitTokens t))
    ∧ (∀ x ∈ (fulfilled_by_trait c name).1, ∃ e, x = some e
        ∧ ∃ i, c.enumDefs.lookup i = some (edTokens e)) := by
  constructor
  · intro x hx
    rcases List.mem_filterMap.mp hx with ⟨i, hi, hmap⟩
    cases hl : c.traitDefs.lookup i with
    | none => rw [hl] at hmap; simp at hmap
    | some v =>
        rw [hl] at hmap
        simp at hmap
        rcases hT (i, v) (lookup_mem _ _ _ hl) with ⟨t, hwf, hv⟩
        simp at hv
        subst hv
        refine ⟨t, ?_, ⟨i, hl⟩⟩
        rw [← hmap, rt_trait t hwf]
  · intro x hx
    rcases List.mem_filterMap.mp hx with ⟨i, hi, hmap⟩
    cases hl : c.enumDefs.lookup i with
    | none => rw [hl] at hmap; simp at hmap
    | some v =>
        rw [hl] at hmap
        simp at hmap
        rcases hE (i, v) (lookup_mem _ _ _ hl) with ⟨e, hv⟩
        simp at hv
        subst hv
        refine ⟨e, ?_, ⟨i, hl⟩⟩
        rw [← hmap, rt_ed e]

/-- C10 witness: in the sample cache the retrieval for the sample enum's name
yields a successful parse whose print equals the stored stream. -/
theorem cache_roundtrip_witness :
    ∃ t, (some sampleTrait : Option ItemTrait) = some t
      ∧ ∃ i, sampleCache.traitDefs.lookup i = some (traitTokens t) := by
  have h := cache_roundtrip sampleCache "Knob" ?_ ?_
  · exact h.1 (some sampleTrait) (head?_mem_of_eq _ _ rfl)
  · intro p hp
    simp [sampleCache, defer_link, cache_enum_dispatch, cache_trait, emptyCache,
      mapInsert, linkPush, List.lookup] at hp
    exact ⟨sampleTrait, rfl, by simp [hp]⟩
  · intro p hp
    simp [sampleCache, defer_link, cache_enum_dispatch, cache_trait, emptyCache,
      mapInsert, linkPush, List.lookup] at hp
    exact ⟨sampleEnum, by simp [hp]⟩

/-- C7: classification tries the reduced-enum grammar first and returns its
result when it matches; the trait grammar succeeds only when the enum grammar
fails (the two outcomes are mutually exclusive); and an input matching neither
grammar yields the parse-mismatch error result. -/
theorem classification_order :
    (∀ ts e, parseED ts = some e → parseAttributed ts = .ok (.EnumDispatch e))
    ∧ (∀ ts e, parseED ts = some e → parseTraitItem ts = none)
    ∧ (∀ ts t, parseED ts = none → parseTraitItem ts = some t →
        parseAttributed ts = .ok (.Trait t))
    ∧ (∀ ts, parseED ts = none → parseTraitItem ts = none →
        parseAttributed ts = .error ()) :=
  ⟨fun ts e h => by simp [parseAttributed, h],
   fun ts e h => parseED_excl ts e h,
   fun ts t h1 h2 => by simp [parseAttributed, h1, h2],
   fun ts h1 h2 => by simp [parseAttributed, h1, h2]⟩

/-- C7 witness: the printed sample enum classifies as a reduced enum, its
token stream does not parse as a trait, the printed sample trait classifies as
a trait, and a lone punctuation token yields the parse-mismatch error. -/
theorem classification_order_witness :
    parseAttributed (edTokens sampleEnum) = .ok (.EnumDispatch sampleEnum)
    ∧ parseTraitItem (edTokens sampleEnum) = none
    ∧ parseAttributed (traitTokens sampleTrait) = .ok (.Trait sampleTrait)
    ∧ parseAttributed [.punct '#'] = .error () :=
  ⟨classification_order.1 (edTokens sampleEnum) sampleEnum rfl,
   classification_order.2.1 (edTokens sampleEnum) sampleEnum rfl,
   classification_order.2.2.1 (traitTokens sampleTrait) sampleTrait rfl rfl,
   classification_order.2.2.2 [.punct '#'] rfl rfl⟩

/-- C1: for a valid dispatch pair (a well-formed trait and an enum with a
distinct name), processing the two annotated items in either order through the
cache operations and then expanding yields exactly the same expansion output,
namely the single expansion of the pair; order independence holds. -/
theorem order_independence (t : ItemTrait) (e : EnumDispatchItem)
    (hwf : wfTrait t = true) (hne : ¬ t.ident = e.ident) :
    runItems emptyCache [.traitItem t, .enumItem e [t.ident]]
      = runItems emptyCache [.enumItem e [t.ident], .traitItem t]
    ∧ runItems emptyCache [.traitItem t, .enumItem e [t.ident]]
      = [add_enum_impls e t] := by
  have hbt : (t.ident == e.ident) = false := by simp [hne]
  have hbe : (e.ident == t.ident) = false := by
    simp only [beq_eq_false_iff_ne, ne_eq]
    exact fun hk => hne hk.symm
  have hA1 : process emptyCache (.traitItem t)
      = ([], ⟨[(t.ident, traitTokens t)], [], []⟩) := rfl
  have hd : defer_link ⟨[(t.ident, traitTokens t)], [], []⟩ t.ident e.ident
      = ⟨[(t.ident, traitTokens t)], [],
         [(e.ident, [t.ident]), (t.ident, [e.ident])]⟩ := by
    unfold defer_link linkPush
    simp [mapInsert, List.lookup, List.filter, hbe, hbt]
  have hfe : fulfilled_by_enum
      ⟨[(t.ident, traitTokens t)], [(e.ident, edTokens e)],
        [(e.ident, [t.ident]), (t.ident, [e.ident])]⟩ e.ident
      = ([some t],
         ⟨[(t.ident, traitTokens t)], [(e.ident, edTokens e)],
          [(t.ident, [e.ident])]⟩) := by
    unfold fulfilled_by_enum
    simp [List.lookup, List.filter, List.filterMap, mapRemove, hbt,
      rt_trait t hwf]
  have hA2 : process ⟨[(t.ident, traitTokens t)], [], []⟩ (.enumItem e [t.ident])
      = ([add_enum_impls e t],
         ⟨[(t.ident, traitTokens t)], [(e.ident, edTokens e)], []⟩) := by
    simp [process, List.foldl, hd, cache_enum_dispatch, mapInsert, List.filter,
      hfe, reduceOpt, remove_entry, mapRemove]
  have hA : runItems emptyCache [.traitItem t, .enumItem e [t.ident]]
      = [add_enum_impls e t] := by
    simp [runItems, hA1, hA2]
  have hdB : defer_link emptyCache t.ident e.ident
      = ⟨[], [], [(e.ident, [t.ident]), (t.ident, [e.ident])]⟩ := by
    unfold defer_link linkPush
    simp [emptyCache, mapInsert, List.lookup, List.filter, hbe, hbt]
  have hfeB : fulfilled_by_enum
      ⟨[], [(e.ident, edTokens e)],
        [(e.ident, [t.ident]), (t.ident, [e.ident])]⟩ e.ident
      = ([], ⟨[], [(e.ident, edTokens e)], [(t.ident, [e.ident])]⟩) := by
    unfold fulfilled_by_enum
    simp [List.lookup, List.filter, List.filterMap, mapRemove, hbt]
  have hB1 : process emptyCache (.enumItem e [t.ident])
      = ([], ⟨[], [(e.ident, edTokens e)], [(t.ident, [e.ident])]⟩) := by
    simp [process, List.foldl, hdB, cache_enum_dispatch, mapInsert, List.filter,
      hfeB, reduceOpt]
  have hftB : fulfilled_by_trait
      ⟨[(t.ident, traitTokens t)], [(e.ident, edTokens e)],
        [(t.ident, [e.ident])]⟩ t.ident
      = ([some e],
        ⟨[(t.ident, traitTokens t)], [(e.ident, edTokens e)], []⟩) := by
    unfold fulfilled_by_trait
    simp [List.lookup, List.filter, List.filterMap, mapRemove, rt_ed e]
  have hB2 : process ⟨[], [(e.ident, edTokens e)], [(t.ident, [e.ident])]⟩
      (.traitItem t)
      = ([add_enum_impls e t],
        ⟨[(t.ident, traitTokens t)], [(e.ident, edTokens e)], []⟩) := by
    simp [process, cache_trait, mapInsert, List.filter, hftB, reduceOpt,
      remove_entry, mapRemove]
  have hB : runItems emptyCache [.enumItem e [t.ident], .traitItem t]
      = [add_enum_impls e t] := by
    simp [runItems, hB1, hB2]
  exact ⟨hA.trans hB.symm, hA⟩

/-- C1 witness: the sample trait and enum expand identically in both
processing orders. -/
theorem order_independence_witness :
    runItems emptyCache
        [.traitItem sampleTrait, .enumItem sampleEnum ["KnobControl"]]
      = runItems emptyCache
        [.enumItem sampleEnum ["KnobControl"], .traitItem sampleTrait] :=
  (order_independence sampleTrait sampleEnum rfl (by decide)).1

end EnumDispatch

